import Mathlib

/-!
Shallow embedding of the hypercat-go catalogue library (src/hypercat.go).

The Go data model is embedded as plain Lean structures over `String` and
`List`; Go methods that mutate their receiver become state-passing
functions (returning the new state, paired with an `Option String` error
when the Go method returns `error`), and the JSON codec is embedded at the
level of the already-parsed wire shape (`CatWire`, `ItemWire`), which is
what `encoding/json` hands to the custom marshal/unmarshal code.

The file `item.go` of the repository (the `Item`, `Rel`, `Metadata`,
`Items` declarations and the item-level codec) is not among the provided
sources; those parts are modelled from the specification and marked
`Modelled from the spec:` in their doc comments.
-/

namespace Hypercat

/-- DescriptionRel is the URI for the hasDescription relationship
(src/hypercat.go line 16). -/
def DescriptionRel : String := "urn:X-hypercat:rels:hasDescription:en"

/-- Modelled from the spec: a Relation is an immutable pair of a
relationship key string and a value string (declared in the missing
item.go; used throughout src/hypercat.go as `Rel{Rel: ..., Val: ...}`). -/
structure Rel where
  rel : String
  val : String
deriving DecidableEq

/-- Modelled from the spec: `Metadata` is the ordered sequence of
relations carried by an entity (declared in the missing item.go). -/
abbrev Metadata := List Rel

/-- Modelled from the spec: an Item is a catalogue member with a unique
href, a description held in a dedicated field, and a relation store that
excludes the description relation (declared in the missing item.go). -/
structure Item where
  Href : String
  Description : String
  Metadata : Metadata
deriving DecidableEq

/-- Modelled from the spec: `Items` is the ordered item sequence of a
catalogue (declared in the missing item.go). -/
abbrev Items := List Item

/-- HyperCat is the representation of the catalogue object
(src/hypercat.go lines 50-54). -/
structure HyperCat where
  Items : Items
  Metadata : Metadata
  Description : String
deriving DecidableEq

/-- NewHyperCat constructs a catalogue with the given description, no
items and an empty metadata store (src/hypercat.go lines 60-65). -/
def NewHyperCat (description : String) : HyperCat :=
  { Items := [], Metadata := [], Description := description }

/-- Modelled from the spec: item constructor with mandatory href and
description and an empty relation store (missing item.go). -/
def NewItem (href description : String) : Item :=
  { Href := href, Description := description, Metadata := [] }

/-- AddRel appends one relation to the catalogue metadata unconditionally
(src/hypercat.go lines 87-89). -/
def HyperCat.AddRel (h : HyperCat) (rel val : String) : HyperCat :=
  { h with Metadata := h.Metadata ++ [{ rel := rel, val := val }] }

/-- The loop body of ReplaceRel: every entry whose key equals `rel` is
overwritten with `Rel{rel, val}` (src/hypercat.go lines 96-102). -/
def replaceRelList (rel val : String) : Metadata → Metadata
  | [] => []
  | q :: qs =>
      (if q.rel = rel then { rel := rel, val := val } else q) ::
        replaceRelList rel val qs

/-- ReplaceRel overwrites the value of every metadata entry whose key
equals `rel`; no effect when no entry matches (src/hypercat.go 96-102). -/
def HyperCat.ReplaceRel (h : HyperCat) (rel val : String) : HyperCat :=
  { h with Metadata := replaceRelList rel val h.Metadata }

/-- Modelled from the spec: item add-relation delegates to the same
store logic as the catalogue (missing item.go; the source notes the
duplication at src/hypercat.go line 85). -/
def Item.AddRel (i : Item) (rel val : String) : Item :=
  { i with Metadata := i.Metadata ++ [{ rel := rel, val := val }] }

/-- Modelled from the spec: item replace-relation delegates to the same
store logic as the catalogue (missing item.go). -/
def Item.ReplaceRel (i : Item) (rel val : String) : Item :=
  { i with Metadata := replaceRelList rel val i.Metadata }

/-- The error message built at src/hypercat.go line 111. -/
def dupHrefMsg (href : String) : String :=
  "An item with href: \"" ++ href ++ "\" is a already defined within the catalogue"

/-- The error message built at src/hypercat.go line 133. -/
def itemNotFoundMsg (href : String) : String :=
  "An item with href: \"" ++ href ++ "\" was not found within the catalogue"

/-- The error message built at src/hypercat.go line 184. -/
def missingDescMsg : String :=
  "\"" ++ DescriptionRel ++ "\" is a mandatory metadata element"

/-- AddItem scans the existing items for one with the same href; on a
match it returns an error and leaves the catalogue untouched, otherwise
it appends the item (src/hypercat.go lines 108-119). The Go method
mutates its receiver and returns `error`; here it returns the new state
and an optional error message. -/
def HyperCat.AddItem (h : HyperCat) (item : Item) : HyperCat × Option String :=
  if h.Items.any (fun i => item.Href == i.Href) then
    (h, some (dupHrefMsg item.Href))
  else
    ({ h with Items := h.Items ++ [item] }, none)

/-- The loop of ReplaceItem: replace the first item with a matching href
and stop, or report that none was found (src/hypercat.go lines 126-131). -/
def replaceItemList (newItem : Item) : List Item → Option (List Item)
  | [] => none
  | oldItem :: rest =>
      if newItem.Href = oldItem.Href then some (newItem :: rest)
      else (replaceItemList newItem rest).map (fun l => oldItem :: l)

/-- ReplaceItem replaces the first item whose href equals the new item
and returns success, or returns an error leaving the item sequence
unchanged (src/hypercat.go lines 125-135). -/
def HyperCat.ReplaceItem (h : HyperCat) (newItem : Item) : HyperCat × Option String :=
  match replaceItemList newItem h.Items with
  | some items => ({ h with Items := items }, none)
  | none => (h, some (itemNotFoundMsg newItem.Href))

/-- The wire shape of one item after JSON parsing: a top-level href and
the generic metadata array (spec section 6; the item codec itself lives
in the missing item.go). -/
structure ItemWire where
  href : String
  metadata : Metadata
deriving DecidableEq

/-- The wire shape of a catalogue document after JSON parsing: the items
array and the top-level item-metadata array (src/hypercat.go 148-154 and
162-165). -/
structure CatWire where
  items : List ItemWire
  metadata : Metadata
deriving DecidableEq

/-- Modelled from the spec: item encode appends one synthetic description
relation to the store when the description is non-empty, and emits the
href as a top-level attribute (missing item.go; spec section 4.4 says the
encode algorithm applies identically to catalogue and items). -/
def Item.MarshalJSON (i : Item) : ItemWire :=
  { href := i.Href
    metadata :=
      if i.Description ≠ "" then
        i.Metadata ++ [{ rel := DescriptionRel, val := i.Description }]
      else i.Metadata }

/-- MarshalJSON emits the items array and the metadata store, with one
synthetic description relation appended at the end when the description
is non-empty (src/hypercat.go lines 141-155). -/
def HyperCat.MarshalJSON (h : HyperCat) : CatWire :=
  { items := h.Items.map Item.MarshalJSON
    metadata :=
      if h.Description ≠ "" then
        h.Metadata ++ [{ rel := DescriptionRel, val := h.Description }]
      else h.Metadata }

/-- The decode scan loop shared by catalogue and item decoding
(src/hypercat.go lines 175-181): walk the wire metadata with the
description and the reconstructed store as accumulators; an entry keyed
with the reserved description key overwrites the description (so the
last one wins), every other entry is appended to the store. -/
def scanMetadata (desc : String) (store : Metadata) : Metadata → String × Metadata
  | [] => (desc, store)
  | r :: rest =>
      if r.rel = DescriptionRel then scanMetadata r.val store rest
      else scanMetadata desc (store ++ [r]) rest

/-- Modelled from the spec: item decode runs the same scan over the item
wire metadata and fails when the description stays empty (missing
item.go; spec section 4.4, decode applied identically to each item). -/
def Item.UnmarshalJSON (w : ItemWire) : Except String Item :=
  match scanMetadata "" [] w.metadata with
  | (desc, store) =>
      if desc = "" then .error missingDescMsg
      else .ok { Href := w.href, Description := desc, Metadata := store }

/-- Decoding of the items array: each wire item is decoded in order and
the first failure aborts the whole decode (this is what `json.Unmarshal`
into the temporary struct does at src/hypercat.go line 169, invoking the
item-level unmarshal for every element). -/
def unmarshalItems : List ItemWire → Except String Items
  | [] => .ok []
  | w :: ws =>
      match Item.UnmarshalJSON w with
      | .error e => .error e
      | .ok i =>
          match unmarshalItems ws with
          | .error e => .error e
          | .ok is => .ok (i :: is)

/-- UnmarshalJSON on a fresh receiver (the way `Parse` invokes it):
decode the items, run the scan over the top-level metadata, and fail
when the description stays empty (src/hypercat.go lines 161-189). -/
def HyperCat.UnmarshalJSON (w : CatWire) : Except String HyperCat :=
  match unmarshalItems w.items with
  | .error e => .error e
  | .ok items =>
      match scanMetadata "" [] w.metadata with
      | (desc, store) =>
          if desc = "" then .error missingDescMsg
          else .ok { Items := items, Metadata := store, Description := desc }

/-- Parse builds an in-memory catalogue from a wire document; on any
error no catalogue is returned (src/hypercat.go lines 71-80; the
JSON-syntax layer is outside this embedding, so Parse starts from the
parsed wire shape). -/
def Parse (w : CatWire) : Except String HyperCat :=
  HyperCat.UnmarshalJSON w

/-- Rels returns the key of every metadata entry in store order
(src/hypercat.go lines 194-202). -/
def HyperCat.Rels (h : HyperCat) : List String :=
  h.Metadata.map (fun r => r.rel)

/-- Vals collects, in store order, the values of every metadata entry
whose key equals the given key (src/hypercat.go lines 207-217). -/
def HyperCat.Vals (h : HyperCat) (key : String) : List String :=
  h.Metadata.foldl (fun vals r => if r.rel = key then vals ++ [r.val] else vals) []

/-- Items built purely through the public item API: constructed with a
non-empty description, then mutated by add/replace relation; the
predicate `ok` restricts the keys passed to AddRel. -/
inductive ItemBuilt (ok : String → Prop) : Item → Prop
  | new (href d : String) (hd : d ≠ "") : ItemBuilt ok (NewItem href d)
  | addRel (i : Item) (rel val : String) (hr : ok rel) :
      ItemBuilt ok i → ItemBuilt ok (i.AddRel rel val)
  | replaceRel (i : Item) (rel val : String) :
      ItemBuilt ok i → ItemBuilt ok (i.ReplaceRel rel val)

/-- Catalogues built purely through the public API: NewHyperCat with a
non-empty description, then AddRel/ReplaceRel and successful
AddItem/ReplaceItem with items built through the public item API; the
predicate `ok` restricts the keys passed to AddRel (on the catalogue and
on items). -/
inductive Built (ok : String → Prop) : HyperCat → Prop
  | new (d : String) (hd : d ≠ "") : Built ok (NewHyperCat d)
  | addRel (c : HyperCat) (rel val : String) (hr : ok rel) :
      Built ok c → Built ok (c.AddRel rel val)
  | replaceRel (c : HyperCat) (rel val : String) :
      Built ok c → Built ok (c.ReplaceRel rel val)
  | addItem (c c2 : HyperCat) (i : Item) :
      Built ok c → ItemBuilt ok i → c.AddItem i = (c2, none) → Built ok c2
  | replaceItem (c c2 : HyperCat) (i : Item) :
      Built ok c → ItemBuilt ok i → c.ReplaceItem i = (c2, none) → Built ok c2

/-- Catalogues reachable through the public operations including decode:
everything `Built` allows, plus any catalogue returned by Parse. -/
inductive BuiltOps (ok : String → Prop) : HyperCat → Prop
  | new (d : String) (hd : d ≠ "") : BuiltOps ok (NewHyperCat d)
  | addRel (c : HyperCat) (rel val : String) (hr : ok rel) :
      BuiltOps ok c → BuiltOps ok (c.AddRel rel val)
  | replaceRel (c : HyperCat) (rel val : String) :
      BuiltOps ok c → BuiltOps ok (c.ReplaceRel rel val)
  | addItem (c c2 : HyperCat) (i : Item) :
      BuiltOps ok c → ItemBuilt ok i → c.AddItem i = (c2, none) → BuiltOps ok c2
  | replaceItem (c c2 : HyperCat) (i : Item) :
      BuiltOps ok c → ItemBuilt ok i → c.ReplaceItem i = (c2, none) → BuiltOps ok c2
  | parse (w : CatWire) (c : HyperCat) : Parse w = .ok c → BuiltOps ok c

/-- A metadata store that contains no entry keyed with the reserved
description key. -/
def NoDesc (m : Metadata) : Prop := ∀ r ∈ m, r.rel ≠ DescriptionRel

/-- The item-level invariant needed for a lossless round trip: non-empty
description and no description entry inside the store. -/
def GoodItem (i : Item) : Prop := i.Description ≠ "" ∧ NoDesc i.Metadata

/-- The catalogue-level invariant needed for a lossless round trip. -/
def Good (c : HyperCat) : Prop :=
  c.Description ≠ "" ∧ NoDesc c.Metadata ∧ ∀ i ∈ c.Items, GoodItem i

theorem noDesc_append {m : Metadata} {r : Rel} (hm : NoDesc m)
    (hr : r.rel ≠ DescriptionRel) : NoDesc (m ++ [r]) := by
  intro q hq
  rcases List.mem_append.mp hq with h | h
  · exact hm q h
  · simp only [List.mem_singleton] at h
    subst h; exact hr

theorem noDesc_replaceRelList {m : Metadata} (rel val : String) (hm : NoDesc m) :
    NoDesc (replaceRelList rel val m) := by
  induction m with
  | nil => intro q hq; cases hq
  | cons a as ih =>
      intro q hq
      have ha := hm a (List.mem_cons_self a as)
      have has : NoDesc as := fun r hr => hm r (List.mem_cons_of_mem a hr)
      simp only [replaceRelList, List.mem_cons] at hq
      rcases hq with h | h
      · subst h
        split
        · next heq => simpa [← heq] using ha
        · exact ha
      · exact ih has q h

theorem scanMetadata_fst (m : Metadata) : ∀ (d : String) (s : Metadata),
    (scanMetadata d s m).1 =
      ((m.filter (fun r => r.rel == DescriptionRel)).map Rel.val).getLastD d := by
  induction m with
  | nil => intro d s; simp [scanMetadata]
  | cons r rest ih =>
      intro d s
      by_cases h : r.rel = DescriptionRel
      · have hL : scanMetadata d s (r :: rest) = scanMetadata r.val s rest := by
          simp [scanMetadata, h]
        have hf : List.filter (fun q => q.rel == DescriptionRel) (r :: rest)
            = r :: List.filter (fun q => q.rel == DescriptionRel) rest := by
          simp [List.filter_cons, h]
        rw [hL, ih, hf, List.map_cons, List.getLastD_cons]
      · have hL : scanMetadata d s (r :: rest) = scanMetadata d (s ++ [r]) rest := by
          simp [scanMetadata, h]
        have hf : List.filter (fun q => q.rel == DescriptionRel) (r :: rest)
            = List.filter (fun q => q.rel == DescriptionRel) rest := by
          simp [List.filter_cons, h]
        rw [hL, ih, hf]

theorem scanMetadata_snd (m : Metadata) : ∀ (d : String) (s : Metadata),
    (scanMetadata d s m).2 = s ++ m.filter (fun r => !(r.rel == DescriptionRel)) := by
  induction m with
  | nil => intro d s; simp [scanMetadata]
  | cons r rest ih =>
      intro d s
      by_cases h : r.rel = DescriptionRel
      · simp [scanMetadata, h, List.filter_cons, ih]
      · simp [scanMetadata, h, List.filter_cons, ih]

theorem filter_noDesc_self {m : Metadata} (hm : NoDesc m) :
    m.filter (fun r => !(r.rel == DescriptionRel)) = m := by
  apply List.filter_eq_self.mpr
  intro r hr
  simpa using hm r hr

theorem filter_desc_nil {m : Metadata} (hm : NoDesc m) :
    m.filter (fun r => r.rel == DescriptionRel) = [] := by
  apply List.filter_eq_nil_iff.mpr
  intro r hr
  simpa using hm r hr

theorem scanMetadata_reinject {m : Metadata} (hm : NoDesc m) (v : String) :
    scanMetadata "" [] (m ++ [{ rel := DescriptionRel, val := v }]) = (v, m) := by
  have h1 := scanMetadata_fst (m ++ [{ rel := DescriptionRel, val := v }]) "" []
  have h2 := scanMetadata_snd (m ++ [{ rel := DescriptionRel, val := v }]) "" []
  have : (scanMetadata "" [] (m ++ [{ rel := DescriptionRel, val := v }])) = (v, m) := by
    apply Prod.ext
    · rw [h1]; simp [List.filter_append, filter_desc_nil hm]
    · rw [h2]; simp [List.filter_append, filter_noDesc_self hm]
  exact this

theorem scanMetadata_noDesc {m : Metadata} (hm : NoDesc m) :
    scanMetadata "" [] m = ("", m) := by
  apply Prod.ext
  · rw [scanMetadata_fst]; simp [filter_desc_nil hm]
  · rw [scanMetadata_snd]; simp [filter_noDesc_self hm]

theorem item_marshal_unmarshal {i : Item} (hi : GoodItem i) :
    Item.UnmarshalJSON i.MarshalJSON = .ok i := by
  obtain ⟨hd, hnd⟩ := hi
  have hmeta : (i.MarshalJSON).metadata
      = i.Metadata ++ [{ rel := DescriptionRel, val := i.Description }] := by
    simp [Item.MarshalJSON, hd]
  have hhref : (i.MarshalJSON).href = i.Href := rfl
  rw [Item.UnmarshalJSON, hmeta, scanMetadata_reinject hnd]
  simp [hd, hhref]

theorem unmarshalItems_marshal {l : List Item} (hl : ∀ i ∈ l, GoodItem i) :
    unmarshalItems (l.map Item.MarshalJSON) = .ok l := by
  induction l with
  | nil => rfl
  | cons i is ih =>
      have hi := hl i (List.mem_cons_self i is)
      have his : ∀ j ∈ is, GoodItem j := fun j hj => hl j (List.mem_cons_of_mem i hj)
      rw [List.map_cons, unmarshalItems, item_marshal_unmarshal hi, ih his]

theorem item_unmarshal_shape (w : ItemWire) :
    (∃ i, Item.UnmarshalJSON w = .ok i) ∨ Item.UnmarshalJSON w = .error missingDescMsg := by
  rw [Item.UnmarshalJSON]
  split
  next desc store heq =>
    by_cases h : desc = ""
    · right; simp [h]
    · left
      refine ⟨{ Href := w.href, Description := desc, Metadata := store }, ?_⟩
      simp [h]

theorem unmarshalItems_shape (ws : List ItemWire) :
    (∃ l, unmarshalItems ws = .ok l) ∨ unmarshalItems ws = .error missingDescMsg := by
  induction ws with
  | nil => left; exact ⟨[], rfl⟩
  | cons w rest ih =>
      rcases item_unmarshal_shape w with ⟨i, hi⟩ | hi
      · rcases ih with ⟨l, hl⟩ | hl
        · left; exact ⟨i :: l, by rw [unmarshalItems, hi, hl]⟩
        · right; rw [unmarshalItems, hi, hl]
      · right; rw [unmarshalItems, hi]

theorem itemBuilt_good {ok : String → Prop} (hok : ∀ r, ok r → r ≠ DescriptionRel)
    {i : Item} (hi : ItemBuilt ok i) : GoodItem i := by
  induction hi with
  | new href d hd => exact ⟨hd, fun r hr => by cases hr⟩
  | addRel j rel val hr hj ihj =>
      exact ⟨ihj.1, noDesc_append ihj.2 (hok rel hr)⟩
  | replaceRel j rel val hj ihj =>
      exact ⟨ihj.1, noDesc_replaceRelList rel val ihj.2⟩

theorem replaceItemList_mem {it : Item} : ∀ {l l2 : List Item},
    replaceItemList it l = some l2 → ∀ x ∈ l2, x = it ∨ x ∈ l := by
  intro l
  induction l with
  | nil => intro l2 h; cases h
  | cons old rest ih =>
      intro l2 h x hx
      rw [replaceItemList] at h
      split at h
      · cases h
        rcases List.mem_cons.mp hx with h1 | h1
        · left; exact h1
        · right; exact List.mem_cons_of_mem old h1
      · cases hrec : replaceItemList it rest with
        | none => rw [hrec] at h; cases h
        | some l3 =>
            rw [hrec] at h
            cases h
            rcases List.mem_cons.mp hx with h1 | h1
            · right; subst h1; exact List.mem_cons_self x rest
            · rcases ih hrec x h1 with h2 | h2
              · left; exact h2
              · right; exact List.mem_cons_of_mem old h2

theorem addItem_ok {c c2 : HyperCat} {i : Item} (h : c.AddItem i = (c2, none)) :
    c2 = { c with Items := c.Items ++ [i] } := by
  rw [HyperCat.AddItem] at h
  split at h
  · cases h
  · cases h; rfl

theorem replaceItem_ok {c c2 : HyperCat} {i : Item} (h : c.ReplaceItem i = (c2, none)) :
    ∃ l, replaceItemList i c.Items = some l ∧ c2 = { c with Items := l } := by
  rw [HyperCat.ReplaceItem] at h
  split at h
  next l heq => cases h; exact ⟨l, heq, rfl⟩
  next heq => cases h

theorem built_good {ok : String → Prop} (hok : ∀ r, ok r → r ≠ DescriptionRel)
    {c : HyperCat} (hc : Built ok c) : Good c := by
  induction hc with
  | new d hd =>
      refine ⟨hd, ?_, ?_⟩
      · intro r hr; cases hr
      · intro i hi; cases hi
  | addRel c rel val hr hc ihc =>
      exact ⟨ihc.1, noDesc_append ihc.2.1 (hok rel hr), ihc.2.2⟩
  | replaceRel c rel val hc ihc =>
      exact ⟨ihc.1, noDesc_replaceRelList rel val ihc.2.1, ihc.2.2⟩
  | addItem c c2 i hc hi heq ihc =>
      obtain rfl := addItem_ok heq
      refine ⟨ihc.1, ihc.2.1, fun j hj => ?_⟩
      rcases List.mem_append.mp hj with h | h
      · exact ihc.2.2 j h
      · simp only [List.mem_singleton] at h
        subst h; exact itemBuilt_good hok hi
  | replaceItem c c2 i hc hi heq ihc =>
      obtain ⟨l, hl, rfl⟩ := replaceItem_ok heq
      refine ⟨ihc.1, ihc.2.1, fun j hj => ?_⟩
      rcases replaceItemList_mem hl j hj with h | h
      · subst h; exact itemBuilt_good hok hi
      · exact ihc.2.2 j h

theorem good_roundtrip {c : HyperCat} (hc : Good c) :
    Parse c.MarshalJSON = .ok c := by
  obtain ⟨hd, hnd, hitems⟩ := hc
  have hmeta : (c.MarshalJSON).metadata
      = c.Metadata ++ [{ rel := DescriptionRel, val := c.Description }] := by
    simp [HyperCat.MarshalJSON, hd]
  have hi : (c.MarshalJSON).items = c.Items.map Item.MarshalJSON := rfl
  rw [Parse, HyperCat.UnmarshalJSON, hi, unmarshalItems_marshal hitems, hmeta,
    scanMetadata_reinject hnd]
  simp [hd]

theorem parse_ok_noDesc {w : CatWire} {c : HyperCat} (h : Parse w = .ok c) :
    NoDesc c.Metadata := by
  rw [Parse, HyperCat.UnmarshalJSON] at h
  split at h
  · cases h
  · split at h
    next desc store heq =>
      split at h
      · cases h
      · cases h
        intro r hr
        have h2 := scanMetadata_snd w.metadata "" []
        rw [heq] at h2
        simp only [List.nil_append] at h2
        have : r ∈ w.metadata.filter (fun q => !(q.rel == DescriptionRel)) := by
          rw [← h2]; exact hr
        have := List.of_mem_filter this
        simpa using this

theorem replaceItemList_none {it : Item} : ∀ {l : List Item},
    (∀ i ∈ l, i.Href ≠ it.Href) → replaceItemList it l = none := by
  intro l
  induction l with
  | nil => intro _; rfl
  | cons old rest ih =>
      intro hall
      rw [replaceItemList]
      rw [if_neg (fun he => hall old (List.mem_cons_self old rest) he.symm)]
      rw [ih (fun i hi => hall i (List.mem_cons_of_mem old hi))]
      rfl

theorem replaceItemList_some {it : Item} : ∀ {l : List Item},
    (∃ i ∈ l, i.Href = it.Href) →
    replaceItemList it l
      = some (l.set (l.findIdx (fun i => it.Href == i.Href)) it) := by
  intro l
  induction l with
  | nil => rintro ⟨i, hi, -⟩; cases hi
  | cons old rest ih =>
      rintro ⟨i, hi, he⟩
      by_cases hold : it.Href = old.Href
      · rw [replaceItemList, if_pos hold]
        rw [List.findIdx_cons]
        simp [hold]
      · have hrest : ∃ j ∈ rest, j.Href = it.Href := by
          rcases List.mem_cons.mp hi with h1 | h1
          · subst h1; exact absurd he.symm hold
          · exact ⟨i, h1, he⟩
        rw [replaceItemList, if_neg hold, ih hrest]
        rw [List.findIdx_cons]
        have hb : (it.Href == old.Href) = false := by simp [hold]
        rw [hb]
        simp [List.set_cons_succ]

theorem vals_foldl (key : String) : ∀ (m : Metadata) (acc : List String),
    m.foldl (fun vals r => if r.rel = key then vals ++ [r.val] else vals) acc
      = acc ++ (m.filter (fun r => r.rel == key)).map Rel.val := by
  intro m
  induction m with
  | nil => intro acc; simp
  | cons r rest ih =>
      intro acc
      by_cases h : r.rel = key
      · rw [List.foldl_cons, if_pos h, ih]
        have hf : List.filter (fun q => q.rel == key) (r :: rest)
            = r :: List.filter (fun q => q.rel == key) rest := by
          simp [List.filter_cons, h]
        rw [hf, List.map_cons]
        simp
      · rw [List.foldl_cons, if_neg h, ih]
        have hf : List.filter (fun q => q.rel == key) (r :: rest)
            = List.filter (fun q => q.rel == key) rest := by
          simp [List.filter_cons, h]
        rw [hf]

theorem replaceRelList_map (rel val : String) : ∀ m : Metadata,
    replaceRelList rel val m
      = m.map (fun q => if q.rel = rel then { rel := rel, val := val } else q) := by
  intro m
  induction m with
  | nil => rfl
  | cons q qs ih => rw [replaceRelList, ih, List.map_cons]

theorem replaceRelList_no_match {rel val : String} : ∀ {m : Metadata},
    (∀ q ∈ m, q.rel ≠ rel) → replaceRelList rel val m = m := by
  intro m
  induction m with
  | nil => intro _; rfl
  | cons q qs ih =>
      intro hall
      rw [replaceRelList, if_neg (hall q (List.mem_cons_self q qs)),
        ih (fun p hp => hall p (List.mem_cons_of_mem q hp))]

theorem parse_ok_shape {w : CatWire} {c : HyperCat} (h : Parse w = .ok c) :
    unmarshalItems w.items = .ok c.Items
    ∧ c.Metadata = (scanMetadata "" [] w.metadata).2
    ∧ c.Description = (scanMetadata "" [] w.metadata).1 := by
  rw [Parse, HyperCat.UnmarshalJSON] at h
  split at h
  · cases h
  next items hitems =>
    split at h
    next desc store heq =>
      split at h
      · cases h
      · cases h
        exact ⟨hitems, by rw [heq], by rw [heq]⟩

end Hypercat

namespace Hypercat

/-- C1 counterexample: the catalogue obtained from NewHyperCat "d"
followed by AddRel with the reserved description key is built purely
through the public API, yet decoding its encoding loses that store entry:
the round trip returns the catalogue with an empty store instead. -/
theorem c1_roundtrip_counterexample :
    Built (fun _ => True) ((NewHyperCat "d").AddRel DescriptionRel "x")
    ∧ Parse ((NewHyperCat "d").AddRel DescriptionRel "x").MarshalJSON
        = Except.ok (NewHyperCat "d")
    ∧ NewHyperCat "d" ≠ (NewHyperCat "d").AddRel DescriptionRel "x" := by
  refine ⟨Built.addRel _ _ _ trivial (Built.new _ (by decide)), ?_, by decide⟩
  rfl

/-- C1 (amended): for every catalogue built purely through the public API
with AddRel never invoked with the reserved description key (on the
catalogue or on an item), decoding the encoding returns exactly the
original catalogue: same description, same relation sequence, same item
sequence. -/
theorem c1_roundtrip (c : HyperCat)
    (h : Built (fun rel => rel ≠ DescriptionRel) c) :
    Parse c.MarshalJSON = Except.ok c :=
  good_roundtrip (built_good (fun _ hr => hr) h)

theorem c1_roundtrip_witness :
    Parse (HyperCat.MarshalJSON
        { Items := [{ Href := "/a", Description := "r1", Metadata := [] }],
          Metadata := [{ rel := "k", val := "v" }], Description := "cat" })
      = Except.ok
        { Items := [{ Href := "/a", Description := "r1", Metadata := [] }],
          Metadata := [{ rel := "k", val := "v" }], Description := "cat" } :=
  c1_roundtrip _
    (Built.addItem _ _ _
      (Built.addRel _ _ _ (by decide) (Built.new _ (by decide)))
      (ItemBuilt.new "/a" "r1" (by decide)) rfl)

/-- C2: decoding any wire document whose top-level metadata array has no
entry keyed with the reserved description key fails with the
missing-description error, and Parse returns no catalogue on error (the
error branch carries only the message). -/
theorem c2_missing_description (w : CatWire)
    (h : ∀ r ∈ w.metadata, r.rel ≠ DescriptionRel) :
    Parse w = Except.error missingDescMsg := by
  rw [Parse, HyperCat.UnmarshalJSON]
  rcases unmarshalItems_shape w.items with ⟨l, hl⟩ | hl
  · rw [hl, scanMetadata_noDesc h]; rfl
  · rw [hl]

theorem c2_missing_description_witness :
    Parse { items := [], metadata := [{ rel := "a", val := "b" }] }
      = Except.error missingDescMsg :=
  c2_missing_description _ (by decide)

/-- C3 counterexample: AddRel with the reserved description key is a
public operation, and it does put an entry with the reserved key into
the catalogue's relation store. -/
theorem c3_no_desc_counterexample :
    BuiltOps (fun _ => True) ((NewHyperCat "d").AddRel DescriptionRel "x")
    ∧ ((NewHyperCat "d").AddRel DescriptionRel "x").Rels.count DescriptionRel = 1 :=
  ⟨BuiltOps.addRel _ _ _ trivial (BuiltOps.new _ (by decide)), by decide⟩

/-- C3 (amended): for every catalogue reachable through the public
operations (construction, relation and item mutation, decode) in which
AddRel is never invoked with the reserved description key, the relation
store contains no entry keyed with the reserved description key. -/
theorem c3_no_desc_in_store (c : HyperCat)
    (h : BuiltOps (fun rel => rel ≠ DescriptionRel) c) :
    c.Rels.count DescriptionRel = 0 := by
  have hnd : NoDesc c.Metadata := by
    induction h with
    | new d hd => intro r hr; cases hr
    | addRel c rel val hr hc ihc => exact noDesc_append ihc hr
    | replaceRel c rel val hc ihc => exact noDesc_replaceRelList rel val ihc
    | addItem c c2 i hc hi heq ihc => obtain rfl := addItem_ok heq; exact ihc
    | replaceItem c c2 i hc hi heq ihc =>
        obtain ⟨l, hl, rfl⟩ := replaceItem_ok heq; exact ihc
    | parse w c hp => exact parse_ok_noDesc hp
  rw [List.count_eq_zero]
  intro hmem
  obtain ⟨r, hr, hrel⟩ := List.mem_map.mp hmem
  exact hnd r hr hrel

theorem c3_no_desc_in_store_witness :
    (((NewHyperCat "d").AddRel "a" "b").Rels.count DescriptionRel) = 0 :=
  c3_no_desc_in_store _
    (BuiltOps.addRel _ _ _ (by decide) (BuiltOps.new _ (by decide)))

/-- C4: the outgoing metadata array of MarshalJSON is the store in stored
order followed by exactly one synthetic description relation when the
description is non-empty, and is the store verbatim when the description
is the empty string. -/
theorem c4_marshal_metadata (h : HyperCat) :
    (h.Description ≠ "" →
        (h.MarshalJSON).metadata
          = h.Metadata ++ [{ rel := DescriptionRel, val := h.Description }])
    ∧ (h.Description = "" → (h.MarshalJSON).metadata = h.Metadata) := by
  constructor
  · intro hd; simp [HyperCat.MarshalJSON, hd]
  · intro hd; simp [HyperCat.MarshalJSON, hd]

theorem c4_marshal_metadata_witness :
    (HyperCat.MarshalJSON
        { Items := [], Metadata := [{ rel := "a", val := "b" }], Description := "d" }).metadata
      = [{ rel := "a", val := "b" }] ++ [{ rel := DescriptionRel, val := "d" }]
    ∧ (HyperCat.MarshalJSON
        { Items := [], Metadata := [{ rel := "a", val := "b" }], Description := "" }).metadata
      = [{ rel := "a", val := "b" }] :=
  ⟨(c4_marshal_metadata _).1 (by decide), (c4_marshal_metadata _).2 rfl⟩

/-- C5: on a successful decode the reconstructed store is the wire
metadata with every reserved-description-keyed entry removed, in
original wire order, and the description is the value of the last
reserved-description-keyed entry (last one wins). -/
theorem c5_decode_scan (w : CatWire) (c : HyperCat) (h : Parse w = Except.ok c) :
    c.Metadata = w.metadata.filter (fun r => !(r.rel == DescriptionRel))
    ∧ c.Description
        = ((w.metadata.filter (fun r => r.rel == DescriptionRel)).map Rel.val).getLastD "" := by
  obtain ⟨-, hm, hd⟩ := parse_ok_shape h
  constructor
  · rw [hm, scanMetadata_snd]; simp
  · rw [hd, scanMetadata_fst]

theorem c5_decode_scan_witness :
    HyperCat.Metadata
        { Items := [], Metadata := [{ rel := "a", val := "b" }], Description := "two" }
      = (List.filter (fun r => !(r.rel == DescriptionRel))
          [{ rel := DescriptionRel, val := "one" }, { rel := "a", val := "b" },
           { rel := DescriptionRel, val := "two" }])
    ∧ HyperCat.Description
        { Items := [], Metadata := [{ rel := "a", val := "b" }], Description := "two" }
      = ((List.filter (fun r => r.rel == DescriptionRel)
          [{ rel := DescriptionRel, val := "one" }, { rel := "a", val := "b" },
           { rel := DescriptionRel, val := "two" }]).map Rel.val).getLastD "" :=
  c5_decode_scan
    { items := [],
      metadata := [{ rel := DescriptionRel, val := "one" }, { rel := "a", val := "b" },
                   { rel := DescriptionRel, val := "two" }] }
    _ rfl

/-- C6: AddItem fails with the duplicate-href error and leaves the whole
catalogue unchanged when some existing item already has the new item's
href, and otherwise succeeds and appends the item at the end of the
sequence, preserving all prior items and their order. -/
theorem c6_addItem (h : HyperCat) (item : Item) :
    ((∃ i ∈ h.Items, i.Href = item.Href) →
        h.AddItem item = (h, some (dupHrefMsg item.Href)))
    ∧ ((∀ i ∈ h.Items, i.Href ≠ item.Href) →
        h.AddItem item = ({ h with Items := h.Items ++ [item] }, none)) := by
  constructor
  · rintro ⟨i, hi, he⟩
    rw [HyperCat.AddItem, if_pos]
    exact List.any_eq_true.mpr ⟨i, hi, by simp [he]⟩
  · intro hall
    rw [HyperCat.AddItem, if_neg]
    intro hany
    obtain ⟨i, hi, he⟩ := List.any_eq_true.mp hany
    exact hall i hi (eq_of_beq he).symm

theorem c6_addItem_witness :
    HyperCat.AddItem
        { Items := [{ Href := "/a", Description := "x", Metadata := [] }],
          Metadata := [], Description := "d" }
        (NewItem "/a" "y")
      = ({ Items := [{ Href := "/a", Description := "x", Metadata := [] }],
           Metadata := [], Description := "d" },
         some (dupHrefMsg "/a"))
    ∧ HyperCat.AddItem
        { Items := [{ Href := "/a", Description := "x", Metadata := [] }],
          Metadata := [], Description := "d" }
        (NewItem "/b" "y")
      = ({ Items := [{ Href := "/a", Description := "x", Metadata := [] },
                     { Href := "/b", Description := "y", Metadata := [] }],
           Metadata := [], Description := "d" }, none) :=
  ⟨(c6_addItem _ _).1 (by decide), (c6_addItem _ _).2 (by decide)⟩

/-- C7: ReplaceItem overwrites the first item whose href equals the new
item's href in place (index preserved, every other item unchanged) and
succeeds; when no item has that href it fails with the item-not-found
error and leaves the item sequence unchanged. -/
theorem c7_replaceItem (h : HyperCat) (newItem : Item) :
    ((∃ i ∈ h.Items, i.Href = newItem.Href) →
        h.ReplaceItem newItem
          = ({ h with Items :=
                h.Items.set (h.Items.findIdx (fun i => newItem.Href == i.Href)) newItem },
             none))
    ∧ ((∀ i ∈ h.Items, i.Href ≠ newItem.Href) →
        h.ReplaceItem newItem = (h, some (itemNotFoundMsg newItem.Href))) := by
  constructor
  · intro hex
    rw [HyperCat.ReplaceItem, replaceItemList_some hex]
  · intro hall
    rw [HyperCat.ReplaceItem, replaceItemList_none hall]

theorem c7_replaceItem_witness :
    HyperCat.ReplaceItem
        { Items := [{ Href := "/a", Description := "x", Metadata := [] },
                    { Href := "/b", Description := "y", Metadata := [] }],
          Metadata := [], Description := "d" }
        { Href := "/b", Description := "z", Metadata := [] }
      = ({ Items := [{ Href := "/a", Description := "x", Metadata := [] },
                     { Href := "/b", Description := "z", Metadata := [] }],
           Metadata := [], Description := "d" }, none)
    ∧ HyperCat.ReplaceItem
        { Items := [{ Href := "/a", Description := "x", Metadata := [] }],
          Metadata := [], Description := "d" }
        { Href := "/z", Description := "z", Metadata := [] }
      = ({ Items := [{ Href := "/a", Description := "x", Metadata := [] }],
           Metadata := [], Description := "d" },
         some (itemNotFoundMsg "/z")) :=
  ⟨(c7_replaceItem _ _).1 (by decide), (c7_replaceItem _ _).2 (by decide)⟩

/-- C8: ReplaceRel overwrites the value of every store entry whose key
equals the given key (not only the first), leaves non-matching entries,
the key sequence and the length unchanged (the map form), is a no-op and
not an error when nothing matches, and in particular two AddRel of the
same key followed by ReplaceRel and Vals yields the replaced value
twice. -/
theorem c8_replaceRel (c : HyperCat) (rel val : String) :
    (c.ReplaceRel rel val).Metadata
        = c.Metadata.map (fun q => if q.rel = rel then { rel := rel, val := val } else q)
    ∧ (c.ReplaceRel rel val).Items = c.Items
    ∧ (c.ReplaceRel rel val).Description = c.Description
    ∧ ((∀ q ∈ c.Metadata, q.rel ≠ rel) → c.ReplaceRel rel val = c)
    ∧ ∀ d k v1 v2 v3 : String,
        ((((NewHyperCat d).AddRel k v1).AddRel k v2).ReplaceRel k v3).Vals k
          = [v3, v3] := by
  refine ⟨replaceRelList_map rel val c.Metadata, rfl, rfl, ?_, ?_⟩
  · intro hall
    rw [HyperCat.ReplaceRel, replaceRelList_no_match hall]
  · intro d k v1 v2 v3
    simp [NewHyperCat, HyperCat.AddRel, HyperCat.ReplaceRel, replaceRelList,
      HyperCat.Vals]

theorem c8_replaceRel_witness :
    HyperCat.ReplaceRel
        { Items := [], Metadata := [{ rel := "a", val := "b" }], Description := "d" }
        "z" "w"
      = { Items := [], Metadata := [{ rel := "a", val := "b" }], Description := "d" }
    ∧ ((((NewHyperCat "d").AddRel "k" "1").AddRel "k" "2").ReplaceRel "k" "3").Vals "k"
      = ["3", "3"] :=
  ⟨(c8_replaceRel _ "z" "w").2.2.2.1 (by decide),
   (c8_replaceRel (NewHyperCat "d") "z" "w").2.2.2.2 "d" "k" "1" "2" "3"⟩

/-- C9: AddRel appends one entry unconditionally (duplicate keys
permitted, no error is possible), Vals returns the values of all
matching entries in store order (the empty sequence when none match),
and in particular two AddRel of the same key on a fresh catalogue give
Vals equal to both values in insertion order. -/
theorem c9_addRel_vals (c : HyperCat) (rel val key : String) :
    c.AddRel rel val
      = { c with Metadata := c.Metadata ++ [{ rel := rel, val := val }] }
    ∧ c.Vals key = (c.Metadata.filter (fun r => r.rel == key)).map Rel.val
    ∧ ∀ d k v1 v2 : String,
        (((NewHyperCat d).AddRel k v1).AddRel k v2).Vals k = [v1, v2] := by
  refine ⟨rfl, ?_, ?_⟩
  · rw [HyperCat.Vals, vals_foldl]
    simp
  · intro d k v1 v2
    simp [NewHyperCat, HyperCat.AddRel, HyperCat.Vals]

/-- C10: decode treats an empty description value as missing: when the
wire metadata does contain reserved-description-keyed entries but the
last one carries the empty string, Parse fails with the
missing-description error, exactly as when no such entry is present. -/
theorem c10_empty_description (w : CatWire)
    (_h1 : w.metadata.filter (fun r => r.rel == DescriptionRel) ≠ [])
    (h2 : ((w.metadata.filter (fun r => r.rel == DescriptionRel)).map Rel.val).getLast?
            = some "") :
    Parse w = Except.error missingDescMsg := by
  have hdesc : (scanMetadata "" [] w.metadata).1 = "" := by
    rw [scanMetadata_fst, List.getLastD_eq_getLast?, h2]
    rfl
  have hsc : scanMetadata "" [] w.metadata
      = ("", (scanMetadata "" [] w.metadata).2) := by
    apply Prod.ext
    · exact hdesc
    · rfl
  rw [Parse, HyperCat.UnmarshalJSON]
  rcases unmarshalItems_shape w.items with ⟨l, hl⟩ | hl
  · rw [hl, hsc]; rfl
  · rw [hl]

theorem c10_empty_description_witness :
    Parse { items := [], metadata := [{ rel := DescriptionRel, val := "" }] }
      = Except.error missingDescMsg :=
  c10_empty_description _ (by decide) (by decide)

end Hypercat
